import Mathlib

/-!
# A verification development for the pyborehole desurveying core

This file gives a shallow embedding, in Lean 4, of the directional-survey
desurveying pipeline of the `pyborehole` package:

* the well-path resampling utility `resample_between_well_deviation_points`
  and the arc-length nearest-point lookup `get_points_along_spline`
  (`pyborehole/logs.py`),
* the `Deviation` object: construction (`Deviation.__init__`), anchoring
  (`Deviation.add_origin_to_desurveying`), and the absolute-frame consumers
  `plot_deviation_3d` and `get_borehole_tube` (`pyborehole/deviation.py`).

Machine floats are embedded as rationals (`ℚ`); Python exceptions as an
explicit `Except`; pandas columns as association lists from column name to a
list of rational values.  External collaborators (the `wellpathpy` solver and
resampler, the CRS classification of the external CRS library) are modelled
from the specification, with a doc comment saying so.
-/

/-! ## 3D points over ℚ and squared Euclidean distance -/

/-- A 3D point with rational coordinates (embedding a row of an `Nx3`
NumPy array). -/
structure Qvec3 where
  x : ℚ
  y : ℚ
  z : ℚ
deriving DecidableEq, Repr

namespace Qvec3

/-- Componentwise addition. -/
def add (p q : Qvec3) : Qvec3 := ⟨p.x + q.x, p.y + q.y, p.z + q.z⟩

/-- Componentwise subtraction. -/
def sub (p q : Qvec3) : Qvec3 := ⟨p.x - q.x, p.y - q.y, p.z - q.z⟩

/-- Scalar multiplication. -/
def smul (c : ℚ) (p : Qvec3) : Qvec3 := ⟨c * p.x, c * p.y, c * p.z⟩

end Qvec3

/-- Squared Euclidean distance between two points; the source computes
`np.linalg.norm(coordinates[i] - coordinates[i + 1])`, whose square this is. -/
def distSq (p q : Qvec3) : ℚ :=
  (p.x - q.x) ^ 2 + (p.y - q.y) ^ 2 + (p.z - q.z) ^ 2

theorem distSq_nonneg (p q : Qvec3) : 0 ≤ distSq p q := by
  have hx : (0:ℚ) ≤ (p.x - q.x) ^ 2 := sq_nonneg _
  have hy : (0:ℚ) ≤ (p.y - q.y) ^ 2 := sq_nonneg _
  have hz : (0:ℚ) ≤ (p.z - q.z) ^ 2 := sq_nonneg _
  unfold distSq; linarith

theorem distSq_self (p : Qvec3) : distSq p p = 0 := by
  unfold distSq; ring

/-- Squared distance between two points on the same affine line through `a`
with direction `d`, parameters `c` and `c'`. -/
theorem distSq_affine (a d : Qvec3) (c c' : ℚ) :
    distSq (a.add (Qvec3.smul c d)) (a.add (Qvec3.smul c' d))
      = (c - c') ^ 2 * distSq d ⟨0, 0, 0⟩ := by
  unfold distSq Qvec3.add Qvec3.smul
  ring

/-! ## Floor of the square root of a rational

The source computes `int(dist // spacing)` where `dist` is a Euclidean norm;
over ℚ we realise the same natural number as `⌊√(distSq / spacing²)⌋`,
computed exactly from the numerator and denominator via `Nat.sqrt`. -/

/-- `ratFloorSqrt r = ⌊√r⌋` for `0 ≤ r` (and `0` for negative `r`),
computed exactly: with `r = a / b` in lowest terms,
`⌊√(a/b)⌋ = ⌊√(a·b) / b⌋ = Nat.sqrt (a·b) / b`. -/
def ratFloorSqrt (r : ℚ) : ℕ :=
  Nat.sqrt (r.num.toNat * r.den) / r.den

theorem ratFloorSqrt_le {r : ℚ} (hr : 0 ≤ r) :
    ((ratFloorSqrt r : ℚ)) ^ 2 ≤ r := by
  have hbpos : 0 < r.den := r.pos
  have h2 : Nat.sqrt (r.num.toNat * r.den) * Nat.sqrt (r.num.toNat * r.den)
      ≤ r.num.toNat * r.den := by
    have h := Nat.sqrt_le' (r.num.toNat * r.den)
    rwa [pow_two] at h
  have h1 : ratFloorSqrt r * r.den ≤ Nat.sqrt (r.num.toNat * r.den) :=
    Nat.div_mul_le_self _ _
  have h3 : (ratFloorSqrt r * r.den) * (ratFloorSqrt r * r.den)
      ≤ r.num.toNat * r.den :=
    le_trans (Nat.mul_le_mul h1 h1) h2
  have h3Q : ((ratFloorSqrt r : ℚ) * r.den) * ((ratFloorSqrt r : ℚ) * r.den)
      ≤ (r.num.toNat : ℚ) * r.den := by exact_mod_cast h3
  have hnum : ((r.num.toNat : ℚ)) = (r.num : ℚ) := by
    norm_cast
    exact Int.toNat_of_nonneg (Rat.num_nonneg.mpr hr)
  have hbQ : (0:ℚ) < r.den := by exact_mod_cast hbpos
  have hrb : r * r.den = (r.num : ℚ) := by
    calc r * r.den = ((r.num : ℚ) / r.den) * r.den := by rw [Rat.num_div_den r]
      _ = (r.num : ℚ) := div_mul_cancel₀ _ hbQ.ne'
  nlinarith [h3Q, hbQ, hrb, hnum, mul_pos hbQ hbQ]

theorem ratFloorSqrt_lt (r : ℚ) :
    r < ((ratFloorSqrt r : ℚ) + 1) ^ 2 := by
  rcases le_or_lt r 0 with hr | hr
  · calc r ≤ 0 := hr
      _ < ((ratFloorSqrt r : ℚ) + 1) ^ 2 := by positivity
  · have hbpos : 0 < r.den := r.pos
    have h1 : r.num.toNat * r.den
        < (Nat.sqrt (r.num.toNat * r.den) + 1) * (Nat.sqrt (r.num.toNat * r.den) + 1) := by
      have h := Nat.lt_succ_sqrt' (r.num.toNat * r.den)
      rwa [Nat.succ_eq_add_one, pow_two] at h
    have h2 : Nat.sqrt (r.num.toNat * r.den) < (ratFloorSqrt r + 1) * r.den := by
      have hmod := Nat.div_add_mod (Nat.sqrt (r.num.toNat * r.den)) r.den
      have hlt := Nat.mod_lt (Nat.sqrt (r.num.toNat * r.den)) hbpos
      calc Nat.sqrt (r.num.toNat * r.den)
          = r.den * ratFloorSqrt r + Nat.sqrt (r.num.toNat * r.den) % r.den := hmod.symm
        _ < r.den * ratFloorSqrt r + r.den := Nat.add_lt_add_left hlt _
        _ = (ratFloorSqrt r + 1) * r.den := by ring
    have h3 : r.num.toNat * r.den
        < ((ratFloorSqrt r + 1) * r.den) * ((ratFloorSqrt r + 1) * r.den) :=
      lt_of_lt_of_le h1 (Nat.mul_le_mul h2 h2)
    have h3Q : ((r.num.toNat : ℚ)) * r.den
        < (((ratFloorSqrt r : ℚ) + 1) * r.den) * (((ratFloorSqrt r : ℚ) + 1) * r.den) := by
      exact_mod_cast h3
    have hnum : ((r.num.toNat : ℚ)) = (r.num : ℚ) := by
      norm_cast
      exact Int.toNat_of_nonneg (Rat.num_nonneg.mpr hr.le)
    have hbQ : (0:ℚ) < r.den := by exact_mod_cast hbpos
    have hrb : r * r.den = (r.num : ℚ) := by
      calc r * r.den = ((r.num : ℚ) / r.den) * r.den := by rw [Rat.num_div_den r]
        _ = (r.num : ℚ) := div_mul_cancel₀ _ hbQ.ne'
    nlinarith [h3Q, hbQ, hrb, hnum, mul_pos hbQ hbQ]

/-! ## `resample_between_well_deviation_points` (`pyborehole/logs.py`)

The source iterates over consecutive waypoint pairs; for each pair it computes
`dist = np.linalg.norm(coordinates[i] - coordinates[i + 1])`,
`num_points = int(dist // spacing)`, and
`points = np.linspace(coordinates[i], coordinates[i + 1], num_points + 1)`,
then concatenates all the per-segment point lists. -/

/-- `numSub a b s` embeds `int(dist // spacing)`: the floor of the Euclidean
distance between `a` and `b` divided by the spacing `s`, realised exactly
over ℚ as `⌊√(distSq a b / s²)⌋`. -/
def numSub (a b : Qvec3) (s : ℚ) : ℕ :=
  ratFloorSqrt (distSq a b / s ^ 2)

/-- Defining property, lower half: `numSub` subdivisions of size `s` do not
exceed the segment, i.e. `(numSub · s)² ≤ distSq`. -/
theorem numSub_sq_le (a b : Qvec3) {s : ℚ} (hs : 0 < s) :
    ((numSub a b s : ℚ) * s) ^ 2 ≤ distSq a b := by
  have hr : (0:ℚ) ≤ distSq a b / s ^ 2 :=
    div_nonneg (distSq_nonneg a b) (by positivity)
  have h := ratFloorSqrt_le hr
  have hs2 : (0:ℚ) < s ^ 2 := by positivity
  rw [le_div_iff₀ hs2] at h
  calc ((numSub a b s : ℚ) * s) ^ 2
      = (ratFloorSqrt (distSq a b / s ^ 2) : ℚ) ^ 2 * s ^ 2 := by
        unfold numSub; ring
    _ ≤ distSq a b := h

/-- Defining property, upper half: `numSub + 1` subdivisions of size `s`
overshoot the segment, i.e. `distSq < ((numSub + 1) · s)²`. -/
theorem numSub_lt_sq (a b : Qvec3) {s : ℚ} (hs : 0 < s) :
    distSq a b < (((numSub a b s : ℚ) + 1) * s) ^ 2 := by
  have h := ratFloorSqrt_lt (distSq a b / s ^ 2)
  have hs2 : (0:ℚ) < s ^ 2 := by positivity
  rw [div_lt_iff₀ hs2] at h
  calc distSq a b < ((ratFloorSqrt (distSq a b / s ^ 2) : ℚ) + 1) ^ 2 * s ^ 2 := h
    _ = (((numSub a b s : ℚ) + 1) * s) ^ 2 := by unfold numSub; ring

/-- `linspaceQ a b n` embeds `np.linspace(a, b, n + 1)`: for `n = 0` a single
sample `[a]` (NumPy's `linspace` with `num=1` returns only the start point);
for `n ≥ 1` the `n + 1` samples `a + (j/n)·(b - a)`, `j = 0, …, n`, including
both endpoints. -/
def linspaceQ (a b : Qvec3) : ℕ → List Qvec3
  | 0 => [a]
  | n + 1 =>
      (List.range (n + 2)).map
        (fun (j : ℕ) => a.add (Qvec3.smul ((j : ℚ) / ((n : ℚ) + 1)) (b.sub a)))

/-- One segment of the resampler: the `np.linspace` call at
`num_points = numSub a b s`. -/
def segPoints (a b : Qvec3) (s : ℚ) : List Qvec3 :=
  linspaceQ a b (numSub a b s)

/-- Tail of the concatenation loop of `resample_between_well_deviation_points`:
the flattened per-segment lists starting from waypoint `a`. -/
def resampleGo (s : ℚ) : Qvec3 → List Qvec3 → List Qvec3
  | _, [] => []
  | a, b :: rest => segPoints a b s ++ resampleGo s b rest

/-- `resample_between_well_deviation_points` (`pyborehole/logs.py`): the
concatenation, over every consecutive waypoint pair, of
`np.linspace(coordinates[i], coordinates[i+1], int(dist // spacing) + 1)`. -/
def resample_between_well_deviation_points
    (coordinates : List Qvec3) (spacing : ℚ) : List Qvec3 :=
  match coordinates with
  | [] => []
  | a :: rest => resampleGo spacing a rest

/-! ### Structural lemmas about the resampled polyline -/

theorem Qvec3_add_smul_zero (a d : Qvec3) : a.add (Qvec3.smul 0 d) = a := by
  cases a; cases d
  simp [Qvec3.add, Qvec3.smul]

theorem Qvec3_add_smul_one (a b : Qvec3) :
    a.add (Qvec3.smul 1 (b.sub a)) = b := by
  cases a; cases b
  simp [Qvec3.add, Qvec3.smul, Qvec3.sub]

theorem distSq_sub_zero (a b : Qvec3) :
    distSq (b.sub a) ⟨0, 0, 0⟩ = distSq a b := by
  unfold distSq Qvec3.sub
  ring

theorem linspaceQ_ne_nil (a b : Qvec3) (n : ℕ) : linspaceQ a b n ≠ [] := by
  cases n with
  | zero => simp [linspaceQ]
  | succ n =>
      simp only [linspaceQ, ne_eq, List.map_eq_nil_iff, List.range_eq_nil]
      omega

theorem linspaceQ_head? (a b : Qvec3) (n : ℕ) :
    (linspaceQ a b n).head? = some a := by
  cases n with
  | zero => rfl
  | succ n =>
      unfold linspaceQ
      rw [List.head?_map]
      have h0 : (List.range (n + 2)).head? = some 0 := by
        rw [List.range_succ_eq_map]
        rfl
      rw [h0]
      simp only [Option.map_some']
      rw [show ((0 : ℕ) : ℚ) / ((n : ℚ) + 1) = 0 by simp]
      rw [Qvec3_add_smul_zero]

theorem linspaceQ_getLast?_succ (a b : Qvec3) (n : ℕ) :
    (linspaceQ a b (n + 1)).getLast? = some b := by
  unfold linspaceQ
  rw [List.getLast?_map]
  have h0 : (List.range (n + 2)).getLast? = some (n + 1) := by
    rw [List.range_succ]
    exact List.getLast?_concat _
  rw [h0]
  simp only [Option.map_some']
  have hne : ((n : ℚ) + 1) ≠ 0 := by positivity
  rw [show (((n : ℕ) + 1 : ℕ) : ℚ) / ((n : ℚ) + 1) = 1 by push_cast; field_simp]
  rw [Qvec3_add_smul_one]

theorem mem_linspaceQ_self (a b : Qvec3) (n : ℕ) : a ∈ linspaceQ a b n := by
  have h := linspaceQ_head? a b n
  cases hl : linspaceQ a b n with
  | nil => exact absurd hl (linspaceQ_ne_nil a b n)
  | cons x t =>
      rw [hl] at h
      simp only [List.head?_cons, Option.some.injEq] at h
      rw [h]
      exact List.mem_cons_self _ _

theorem mem_linspaceQ_last (a b : Qvec3) (n : ℕ) : b ∈ linspaceQ a b (n + 1) := by
  have h := linspaceQ_getLast?_succ a b n
  have hb : b ∈ (linspaceQ a b (n + 1)).getLast? := by rw [h]; rfl
  obtain ⟨hne, heq⟩ := List.mem_getLast?_eq_getLast hb
  have hmem := List.getLast_mem hne
  rwa [← heq] at hmem

/-- Within one `np.linspace` segment of `n + 1` subdivisions, every pair of
consecutive output points is at squared distance `distSq a b / (n + 1)²`. -/
theorem linspaceQ_chain' (a b : Qvec3) (n : ℕ) :
    List.Chain' (fun p q => distSq p q = distSq a b / ((n : ℚ) + 1) ^ 2)
      (linspaceQ a b (n + 1)) := by
  unfold linspaceQ
  rw [List.chain'_map]
  rw [List.chain'_range_succ]
  intro m hm
  rw [distSq_affine]
  rw [distSq_sub_zero]
  have hne : ((n : ℚ) + 1) ≠ 0 := by positivity
  push_cast
  field_simp

theorem segPoints_ne_nil (a b : Qvec3) (s : ℚ) : segPoints a b s ≠ [] :=
  linspaceQ_ne_nil a b (numSub a b s)

theorem segPoints_head? (a b : Qvec3) (s : ℚ) :
    (segPoints a b s).head? = some a :=
  linspaceQ_head? a b (numSub a b s)

theorem resampleGo_head? (s : ℚ) (a b : Qvec3) (rest : List Qvec3) :
    (resampleGo s a (b :: rest)).head? = some a := by
  show (segPoints a b s ++ resampleGo s b rest).head? = some a
  cases hsp : segPoints a b s with
  | nil => exact absurd hsp (segPoints_ne_nil a b s)
  | cons x t =>
      have h := segPoints_head? a b s
      rw [hsp] at h
      simp only [List.head?_cons, Option.some.injEq] at h
      subst h
      rfl

/-- Within one segment, every consecutive gap of the output has squared
distance strictly below `(2·spacing)²`. -/
theorem segPoints_chain'_lt (a b : Qvec3) {s : ℚ} (hs : 0 < s) :
    List.Chain' (fun p q => distSq p q < (2 * s) ^ 2) (segPoints a b s) := by
  unfold segPoints
  cases hn : numSub a b s with
  | zero => simp [linspaceQ]
  | succ n =>
      refine (linspaceQ_chain' a b n).imp ?_
      intro p q hpq
      rw [hpq]
      have hub := numSub_lt_sq a b hs
      rw [hn] at hub
      have hpos : (0:ℚ) < ((n : ℚ) + 1) ^ 2 := by positivity
      rw [div_lt_iff₀ hpos]
      have hcast : (((n + 1 : ℕ) : ℚ) + 1) = (n : ℚ) + 2 := by push_cast; ring
      rw [hcast] at hub
      nlinarith [hub, hs, sq_nonneg ((n : ℚ))]

/-- Every consecutive gap in the output of the concatenation loop has squared
distance strictly below `(2·spacing)²`. -/
theorem resampleGo_chain' {s : ℚ} (hs : 0 < s) (rest : List Qvec3) (a : Qvec3) :
    List.Chain' (fun p q => distSq p q < (2 * s) ^ 2) (resampleGo s a rest) := by
  induction rest generalizing a with
  | nil => simp [resampleGo]
  | cons b rest ih =>
      show List.Chain' _ (segPoints a b s ++ resampleGo s b rest)
      refine List.Chain'.append (segPoints_chain'_lt a b hs) (ih b) ?_
      intro x hx y hy
      cases rest with
      | nil => simp [resampleGo] at hy
      | cons c r =>
          rw [resampleGo_head? s b c r] at hy
          have hy' : b = y := by simpa using hy
          subst hy'
          cases hn : numSub a b s with
          | zero =>
              have hseg : segPoints a b s = [a] := by
                unfold segPoints
                rw [hn]
                rfl
              rw [hseg] at hx
              have hx' : a = x := by simpa using hx
              subst hx'
              have hub := numSub_lt_sq a b hs
              rw [hn] at hub
              push_cast at hub
              nlinarith [hub, hs]
          | succ n =>
              have hl : (segPoints a b s).getLast? = some b := by
                unfold segPoints
                rw [hn]
                exact linspaceQ_getLast?_succ a b n
              rw [hl] at hx
              have hx' : b = x := by simpa using hx
              subst hx'
              rw [distSq_self]
              positivity

/-- A segment at least as long as the spacing gets at least one subdivision. -/
theorem numSub_pos_of_le {a b : Qvec3} {s : ℚ} (hs : 0 < s)
    (h : s ^ 2 ≤ distSq a b) : 1 ≤ numSub a b s := by
  by_contra h0
  have hz : numSub a b s = 0 := by omega
  have hub := numSub_lt_sq a b hs
  rw [hz] at hub
  push_cast at hub
  nlinarith [hub, h]

theorem mem_segPoints_left (a b : Qvec3) (s : ℚ) : a ∈ segPoints a b s :=
  mem_linspaceQ_self a b (numSub a b s)

theorem mem_segPoints_right {a b : Qvec3} {s : ℚ} (h : 1 ≤ numSub a b s) :
    b ∈ segPoints a b s := by
  unfold segPoints
  obtain ⟨n, hn⟩ : ∃ n, numSub a b s = n + 1 := ⟨numSub a b s - 1, by omega⟩
  rw [hn]
  exact mem_linspaceQ_last a b n

/-- When every segment is at least as long as the spacing, the concatenation
loop emits every waypoint. -/
theorem resampleGo_mem {s : ℚ} (hs : 0 < s) (rest : List Qvec3) (a : Qvec3)
    (hne : rest ≠ [])
    (hch : List.Chain (fun p q => s ^ 2 ≤ distSq p q) a rest) :
    ∀ p ∈ a :: rest, p ∈ resampleGo s a rest := by
  induction rest generalizing a with
  | nil => cases hne rfl
  | cons b rest ih =>
      obtain ⟨hab, hch'⟩ := List.chain_cons.mp hch
      intro p hp
      show p ∈ segPoints a b s ++ resampleGo s b rest
      rcases List.mem_cons.mp hp with rfl | hp'
      · exact List.mem_append_left _ (mem_segPoints_left p b s)
      rcases List.mem_cons.mp hp' with rfl | hp''
      · exact List.mem_append_left _
          (mem_segPoints_right (numSub_pos_of_le hs hab))
      · cases rest with
        | nil => simp at hp''
        | cons c r =>
            exact List.mem_append_right _
              (ih b (by simp) hch' p (List.mem_cons_of_mem _ hp''))

/-- When every segment is at least as long as the spacing, every interior
(boundary) waypoint is emitted at least twice: once as the end of one
segment's `linspace` and once as the start of the next. -/
theorem resampleGo_count_boundary {s : ℚ} (hs : 0 < s) (rest : List Qvec3)
    (a : Qvec3)
    (hch : List.Chain (fun p q => s ^ 2 ≤ distSq p q) a rest) :
    ∀ p ∈ rest.dropLast, 2 ≤ (resampleGo s a rest).count p := by
  induction rest generalizing a with
  | nil => intro p hp; simp at hp
  | cons b rest ih =>
      obtain ⟨hab, hch'⟩ := List.chain_cons.mp hch
      intro p hp
      cases rest with
      | nil => simp at hp
      | cons c r =>
          have hp2 : p ∈ b :: (c :: r).dropLast := hp
          show 2 ≤ (segPoints a b s ++ resampleGo s b (c :: r)).count p
          rw [List.count_append]
          rcases List.mem_cons.mp hp2 with rfl | hp'
          · have h1 : 0 < (segPoints a p s).count p :=
              List.count_pos_iff.mpr (mem_segPoints_right (numSub_pos_of_le hs hab))
            have hbgo : p ∈ resampleGo s p (c :: r) :=
              List.mem_append_left _ (mem_segPoints_left p c s)
            have h2 : 0 < (resampleGo s p (c :: r)).count p :=
              List.count_pos_iff.mpr hbgo
            omega
          · have h3 := ih b hch' p hp'
            have h0 : 0 ≤ (segPoints a b s).count p := Nat.zero_le _
            omega


/-- Uniqueness of the floor characterisation: any `k` with
`(k·s)² ≤ distSq < ((k+1)·s)²` is the value of `numSub` (used to evaluate
`numSub` on concrete inputs without kernel computation on ℚ). -/
theorem numSub_eq {a b : Qvec3} {s : ℚ} (hs : 0 < s) (k : ℕ)
    (h1 : ((k : ℚ) * s) ^ 2 ≤ distSq a b)
    (h2 : distSq a b < (((k : ℚ) + 1) * s) ^ 2) :
    numSub a b s = k := by
  have A := numSub_sq_le a b hs
  have B := numSub_lt_sq a b hs
  have hk1 : (k : ℚ) < (numSub a b s : ℚ) + 1 := by
    by_contra hcon
    push_neg at hcon
    have hn0 : (0:ℚ) ≤ ((numSub a b s : ℚ) + 1) * s := by positivity
    have hks : ((numSub a b s : ℚ) + 1) * s ≤ (k : ℚ) * s :=
      mul_le_mul_of_nonneg_right hcon hs.le
    nlinarith [h1, B, hn0, hks]
  have hk2 : (numSub a b s : ℚ) < (k : ℚ) + 1 := by
    by_contra hcon
    push_neg at hcon
    have hn0 : (0:ℚ) ≤ ((k : ℚ) + 1) * s := by positivity
    have hks : ((k : ℚ) + 1) * s ≤ (numSub a b s : ℚ) * s :=
      mul_le_mul_of_nonneg_right hcon hs.le
    nlinarith [A, h2, hn0, hks]
  have hk1' : k < numSub a b s + 1 := by exact_mod_cast hk1
  have hk2' : numSub a b s < k + 1 := by exact_mod_cast hk2
  omega

theorem numSub_0_0_3_spacing_2 :
    numSub ⟨0, 0, 0⟩ ⟨0, 0, 3⟩ 2 = 1 :=
  numSub_eq (by norm_num) 1 (by norm_num [distSq]) (by norm_num [distSq])

theorem resample_0_3_spacing_2_eval :
    resample_between_well_deviation_points [⟨0, 0, 0⟩, ⟨0, 0, 3⟩] 2
      = [⟨0, 0, 0⟩, ⟨0, 0, 3⟩] := by
  norm_num [resample_between_well_deviation_points, resampleGo, segPoints,
    numSub_0_0_3_spacing_2, linspaceQ, List.range_succ,
    Qvec3.add, Qvec3.smul, Qvec3.sub, Qvec3.mk.injEq]

/-- C4 counterexample: for the waypoints `(0,0,0)` and `(0,0,3)` with
spacing `2`, the segment length is `3`, `int(dist // spacing) = 1`, and the
output is exactly the two endpoints — a consecutive gap of `3 > 2`.  This
refutes the claim that consecutive output points are never farther apart
than the requested spacing (stated in squared form `distSq ≤ spacing²`,
which for nonnegative spacing is equivalent to `dist ≤ spacing`). -/
theorem C4_counterexample :
    ¬ List.Chain' (fun p q => distSq p q ≤ (2 : ℚ) ^ 2)
        (resample_between_well_deviation_points
          [⟨0, 0, 0⟩, ⟨0, 0, 3⟩] 2) := by
  rw [resample_0_3_spacing_2_eval]
  intro h
  obtain ⟨hR, -⟩ := List.chain'_cons.mp h
  norm_num [distSq] at hR

/-- C4 (amended): for every waypoint list and every positive spacing, the
Euclidean distance between consecutive output points of
`resample_between_well_deviation_points` is strictly below **twice** the
requested spacing (squared form); the bound `≤ spacing` of the claim fails
because the code subdivides into `floor(dist / spacing)` parts, so each
within-segment gap is `dist / floor(dist / spacing) ∈ [spacing, 2·spacing)`
whenever the spacing does not divide the distance. -/
theorem C4_resampling_gap_lt_twice_spacing
    (coordinates : List Qvec3) {spacing : ℚ} (hs : 0 < spacing) :
    List.Chain' (fun p q => distSq p q < (2 * spacing) ^ 2)
      (resample_between_well_deviation_points coordinates spacing) := by
  cases coordinates with
  | nil => simp [resample_between_well_deviation_points]
  | cons a rest => exact resampleGo_chain' hs rest a

/-- C4 witness: the amended bound evaluated on the counterexample input. -/
theorem C4_witness :
    List.Chain' (fun p q => distSq p q < (2 * 2 : ℚ) ^ 2)
      (resample_between_well_deviation_points
        [⟨0, 0, 0⟩, ⟨0, 0, 3⟩] 2) := by
  have h := @C4_resampling_gap_lt_twice_spacing
    [⟨0, 0, 0⟩, ⟨0, 0, 3⟩] 2 (by norm_num)
  simpa using h

theorem numSub_unit_z_spacing_1 (z : ℚ) :
    numSub ⟨0, 0, z⟩ ⟨0, 0, z + 1⟩ 1 = 1 :=
  numSub_eq (by norm_num) 1 (by norm_num [distSq]) (by norm_num [distSq])

theorem resample_0_1_2_spacing_1_eval :
    resample_between_well_deviation_points
        [⟨0, 0, 0⟩, ⟨0, 0, 1⟩, ⟨0, 0, 2⟩] 1
      = [⟨0, 0, 0⟩, ⟨0, 0, 1⟩, ⟨0, 0, 1⟩, ⟨0, 0, 2⟩] := by
  have h1 : numSub ⟨0, 0, 0⟩ ⟨0, 0, 1⟩ 1 = 1 := by
    have := numSub_unit_z_spacing_1 0
    norm_num at this
    exact this
  have h2 : numSub ⟨0, 0, 1⟩ ⟨0, 0, 2⟩ 1 = 1 := by
    have := numSub_unit_z_spacing_1 1
    norm_num at this
    exact this
  norm_num [resample_between_well_deviation_points, resampleGo, segPoints,
    h1, h2, linspaceQ, List.range_succ,
    Qvec3.add, Qvec3.smul, Qvec3.sub, Qvec3.mk.injEq]

/-- C5 counterexample: for waypoints `(0,0,0)`, `(0,0,1)`, `(0,0,2)` with
spacing `1`, the shared boundary waypoint `(0,0,1)` appears **twice** in the
output (once as the end of the first segment's `linspace`, once as the start
of the second segment's), refuting "appears exactly once in the concatenated
output". -/
theorem C5_counterexample :
    (resample_between_well_deviation_points
        [⟨0, 0, 0⟩, ⟨0, 0, 1⟩, ⟨0, 0, 2⟩] 1).count ⟨0, 0, 1⟩ = 2 := by
  rw [resample_0_1_2_spacing_1_eval]
  norm_num [List.count_cons, Qvec3.mk.injEq]

/-- C5 (amended): provided every consecutive waypoint pair is at least the
spacing apart (squared form `spacing² ≤ distSq`), the output contains every
original waypoint; but a waypoint shared as the boundary between two
consecutive segments appears at least **twice**, not exactly once — the code
concatenates the per-segment `linspace` outputs without removing duplicated
boundary points.  (Without the segment-length proviso even containment
fails: a segment shorter than the spacing contributes only its start point,
so a short trailing segment drops the final waypoint.) -/
theorem C5_contains_waypoints_and_duplicates_boundaries
    (coordinates : List Qvec3) {spacing : ℚ} (hs : 0 < spacing)
    (hlen : 2 ≤ coordinates.length)
    (hch : List.Chain' (fun p q => spacing ^ 2 ≤ distSq p q) coordinates) :
    (∀ p ∈ coordinates,
        p ∈ resample_between_well_deviation_points coordinates spacing) ∧
    (∀ p ∈ coordinates.tail.dropLast,
        2 ≤ (resample_between_well_deviation_points coordinates spacing).count p) := by
  cases coordinates with
  | nil => simp at hlen
  | cons a rest =>
      have hne : rest ≠ [] := by
        cases rest with
        | nil => simp at hlen
        | cons b r => simp
      have hchain : List.Chain (fun p q => spacing ^ 2 ≤ distSq p q) a rest := hch
      constructor
      · exact resampleGo_mem hs rest a hne hchain
      · exact resampleGo_count_boundary hs rest a hchain

/-- C5 witness: the amended statement evaluated on three collinear waypoints
spaced `1` apart with spacing `1`. -/
theorem C5_witness :
    (∀ p ∈ ([⟨0, 0, 0⟩, ⟨0, 0, 1⟩, ⟨0, 0, 2⟩] : List Qvec3),
        p ∈ resample_between_well_deviation_points
          [⟨0, 0, 0⟩, ⟨0, 0, 1⟩, ⟨0, 0, 2⟩] 1) ∧
    (∀ p ∈ ([⟨0, 0, 0⟩, ⟨0, 0, 1⟩, ⟨0, 0, 2⟩] : List Qvec3).tail.dropLast,
        2 ≤ (resample_between_well_deviation_points
          [⟨0, 0, 0⟩, ⟨0, 0, 1⟩, ⟨0, 0, 2⟩] 1).count p) :=
  C5_contains_waypoints_and_duplicates_boundaries _ (by norm_num)
    (by norm_num)
    (by norm_num [List.chain'_cons, List.chain'_singleton, distSq])

/-! ## `get_points_along_spline` (`pyborehole/logs.py`)

For each requested measured depth the source computes
`idx = np.argmin(np.abs(spline.point_data['arc_length'] - distance))` and
collects `spline.points[idx]`.  NumPy's `argmin` returns the first
(lowest) index attaining the minimum. -/

/-- Minimum of a list of rationals (`0` for the empty list; only used on
nonempty lists). -/
def listMin : List ℚ → ℚ
  | [] => 0
  | [x] => x
  | x :: y :: rest => min x (listMin (y :: rest))

/-- `argminIdx` embeds `np.argmin`: the first index of a list attaining its
minimum (`0` for the empty list; NumPy raises there, a case the source never
reaches for a nonempty spline). -/
def argminIdx : List ℚ → ℕ
  | [] => 0
  | [_] => 0
  | x :: y :: rest =>
      if x ≤ listMin (y :: rest) then 0 else argminIdx (y :: rest) + 1

/-- A polyline with per-vertex cumulative arc length, embedding the PyVista
`PolyData` with its `arc_length` point-data array. -/
structure Spline where
  points : List Qvec3
  arc_length : List ℚ

/-- `get_points_along_spline` (`pyborehole/logs.py`): for each requested
depth, the spline vertex whose cumulative arc length is `argmin`-nearest. -/
def get_points_along_spline (spline : Spline) (dist : List ℚ) : List Qvec3 :=
  dist.map
    (fun distance =>
      spline.points.getD
        (argminIdx (spline.arc_length.map (fun al => |al - distance|)))
        ⟨0, 0, 0⟩)

theorem listMin_le (xs : List ℚ) : ∀ j < xs.length, listMin xs ≤ xs.getD j 0 := by
  induction xs with
  | nil => intro j hj; simp at hj
  | cons x rest ih =>
      intro j hj
      cases rest with
      | nil =>
          have hj0 : j = 0 := by simpa using Nat.lt_one_iff.mp (by simpa using hj)
          subst hj0
          simp [listMin]
      | cons y r =>
          have hmin : listMin (x :: y :: r) = min x (listMin (y :: r)) := rfl
          cases j with
          | zero =>
              rw [hmin]
              simp only [List.getD_cons_zero]
              exact min_le_left _ _
          | succ j =>
              rw [hmin]
              have hj' : j < (y :: r).length := by simpa using hj
              have := ih j hj'
              simpa using le_trans (min_le_right _ _) this

theorem argminIdx_lt_length (xs : List ℚ) (hne : xs ≠ []) :
    argminIdx xs < xs.length := by
  induction xs with
  | nil => cases hne rfl
  | cons x rest ih =>
      cases rest with
      | nil => simp [argminIdx]
      | cons y r =>
          have harg : argminIdx (x :: y :: r)
              = if x ≤ listMin (y :: r) then 0 else argminIdx (y :: r) + 1 := rfl
          rw [harg]
          by_cases h : x ≤ listMin (y :: r)
          · simp [h]
          · have := ih (by simp)
            simp only [h, if_false]
            simpa using Nat.succ_lt_succ this

theorem getD_argminIdx (xs : List ℚ) (hne : xs ≠ []) :
    xs.getD (argminIdx xs) 0 = listMin xs := by
  induction xs with
  | nil => cases hne rfl
  | cons x rest ih =>
      cases rest with
      | nil => simp [argminIdx, listMin]
      | cons y r =>
          have harg : argminIdx (x :: y :: r)
              = if x ≤ listMin (y :: r) then 0 else argminIdx (y :: r) + 1 := rfl
          have hmin : listMin (x :: y :: r) = min x (listMin (y :: r)) := rfl
          rw [harg, hmin]
          by_cases h : x ≤ listMin (y :: r)
          · simp [h, min_eq_left h]
          · push_neg at h
            have := ih (by simp)
            simp only [if_neg (not_le.mpr h), List.getD_cons_succ]
            rw [this, min_eq_right h.le]

theorem argminIdx_first (xs : List ℚ) :
    ∀ j < xs.length, xs.getD j 0 ≤ listMin xs → argminIdx xs ≤ j := by
  induction xs with
  | nil => intro j hj; simp at hj
  | cons x rest ih =>
      intro j hj hle
      cases rest with
      | nil => simp [argminIdx]
      | cons y r =>
          have harg : argminIdx (x :: y :: r)
              = if x ≤ listMin (y :: r) then 0 else argminIdx (y :: r) + 1 := rfl
          have hmin : listMin (x :: y :: r) = min x (listMin (y :: r)) := rfl
          rw [harg]
          by_cases h : x ≤ listMin (y :: r)
          · simp [h]
          · push_neg at h
            rw [if_neg (not_le.mpr h)]
            cases j with
            | zero =>
                exfalso
                rw [hmin] at hle
                simp only [List.getD_cons_zero] at hle
                have : x ≤ listMin (y :: r) :=
                  le_trans hle (min_le_right _ _)
                exact absurd this (not_le.mpr h)
            | succ j =>
                have hj' : j < (y :: r).length := by simpa using hj
                have hle' : (y :: r).getD j 0 ≤ listMin (y :: r) := by
                  rw [hmin] at hle
                  simp only [List.getD_cons_succ] at hle
                  exact le_trans hle (min_le_right _ _)
                exact Nat.succ_le_succ (ih j hj' hle')

theorem getD_map_abs (arcs : List ℚ) (d : ℚ) (j : ℕ) (hj : j < arcs.length) :
    (arcs.map (fun al => |al - d|)).getD j 0 = |arcs.getD j 0 - d| := by
  rw [List.getD_eq_getElem?_getD, List.getElem?_map,
      List.getElem?_eq_getElem hj]
  rw [List.getD_eq_getElem?_getD, List.getElem?_eq_getElem hj]
  rfl

/-- C7: for every polyline with per-vertex cumulative arc lengths and every
requested depth, `get_points_along_spline` selects a vertex whose arc length
is nearest to the requested depth, and on ties the earlier (shallower,
lower-index) vertex is chosen — `np.argmin` returns the first minimising
index. -/
theorem C7_nearest_point_deterministic_tie_break
    (points : List Qvec3) (arcs : List ℚ) (d : ℚ) (hne : arcs ≠ []) :
    ∃ i,
      i < arcs.length ∧
      get_points_along_spline ⟨points, arcs⟩ [d]
        = [points.getD i ⟨0, 0, 0⟩] ∧
      (∀ j < arcs.length, |arcs.getD i 0 - d| ≤ |arcs.getD j 0 - d|) ∧
      (∀ j < arcs.length, |arcs.getD j 0 - d| = |arcs.getD i 0 - d| → i ≤ j) := by
  have hyne : arcs.map (fun al => |al - d|) ≠ [] := by
    simpa [List.map_eq_nil_iff] using hne
  have hlen : (arcs.map (fun al => |al - d|)).length = arcs.length :=
    List.length_map _ _
  have hi : argminIdx (arcs.map (fun al => |al - d|)) < arcs.length := by
    rw [← hlen]
    exact argminIdx_lt_length _ hyne
  refine ⟨argminIdx (arcs.map (fun al => |al - d|)), hi, ?_, ?_, ?_⟩
  · simp [get_points_along_spline]
  · intro j hj
    have hminv := getD_argminIdx _ hyne
    have hle := listMin_le (arcs.map (fun al => |al - d|)) j (by rw [hlen]; exact hj)
    rw [← getD_map_abs arcs d j hj, ← getD_map_abs arcs d _ hi]
    rw [hminv]
    exact hle
  · intro j hj heq
    apply argminIdx_first _ j (by rw [hlen]; exact hj)
    rw [getD_map_abs arcs d j hj, heq, ← getD_map_abs arcs d _ hi,
        getD_argminIdx _ hyne]

/-- C7 witness: arc lengths `[0, 2]` and requested depth `1` — both vertices
are at distance `1`, and the earlier vertex (index `0`) is selected. -/
theorem C7_witness :
    ∃ i,
      i < ([0, 2] : List ℚ).length ∧
      get_points_along_spline ⟨[⟨0, 0, 0⟩, ⟨0, 0, 2⟩], [0, 2]⟩ [1]
        = [([⟨0, 0, 0⟩, ⟨0, 0, 2⟩] : List Qvec3).getD i ⟨0, 0, 0⟩] ∧
      (∀ j < ([0, 2] : List ℚ).length,
          |([0, 2] : List ℚ).getD i 0 - 1| ≤ |([0, 2] : List ℚ).getD j 0 - 1|) ∧
      (∀ j < ([0, 2] : List ℚ).length,
          |([0, 2] : List ℚ).getD j 0 - 1| = |([0, 2] : List ℚ).getD i 0 - 1| → i ≤ j) :=
  C7_nearest_point_deterministic_tie_break [⟨0, 0, 0⟩, ⟨0, 0, 2⟩] [0, 2] 1
    (by simp)

/-! ## The `Deviation` object (`pyborehole/deviation.py`)

Construction runs the external `wellpathpy` minimum-curvature solver and
resampler on a depth grid `list(range(0, int(md[-1]) + 1, step))`, optionally
adds the borehole origin to the relative coordinates, and stores a
`desurveyed_df` table; `add_origin_to_desurveying` later anchors the
trajectory and writes back into the owning borehole's metadata table.

The embedding keeps the exact statement order of the source.  Fields not
referenced by any claim (`az`/`radius` from `np.arctan2`/`np.sqrt`,
`deviation_df`, `data_dict`) are omitted. -/

/-- A raised Python exception. -/
inductive PyErr where
  | typeError (msg : String)
  | valueError (msg : String)
deriving DecidableEq, Repr

/-- A Python value passed for an optional numeric parameter
(`Union[float, int]`, default `None`); `str` stands for any wrongly typed
argument. -/
inductive PyVal where
  | none
  | num (q : ℚ)
  | str (s : String)
deriving DecidableEq, Repr

/-- Python truthiness (`if not x` tests falsiness): `None`, `0` and the
empty string are falsy. -/
def pyTruthy : PyVal → Bool
  | .none => false
  | .num q => q != 0
  | .str s => s != ""

/-- `isinstance(v, (float, int, type(None)))`. -/
def isNumOrNone : PyVal → Bool
  | .none => true
  | .num _ => true
  | .str _ => false

/-- Numeric value of a `PyVal` (only applied to `num`). -/
def pyNum : PyVal → ℚ
  | .num q => q
  | _ => 0

/-- The WGS84 geographic identifier special-cased by the source's CRS guard. -/
def wgs84 : String := "EPSG:4326"

/-- The `ValueError` message of the CRS guard
(`Deviation.__init__` / `add_origin_to_desurveying`). -/
def crsErrMsg : String :=
  "Please use location coordinates in a cartesian coordinate system for the borehole when adding the origin to desurveyed borehole"

/-- `ValueError` raised by Python's `range` for a zero step. -/
def rangeErrMsg : String := "range() arg 3 must not be zero"

/-- `TypeError` raised when `None + number` is evaluated
(`self.easting + x` on an unanchored deviation). -/
def noneAddErrMsg : String :=
  "unsupported operand type(s) for +: NoneType and int"

def xTypeErrMsg : String := "X coordinate must be provided as float or int"

def yTypeErrMsg : String := "Y coordinate must be provided as float or int"

def zTypeErrMsg : String := "Z coordinate must be provided as float or int"

/-- Column names of the desurveying table. -/
def colTVD : String := "True Vertical Depth"

def colNorthingRel : String := "Northing_rel"

def colEastingRel : String := "Easting_rel"

def colNorthing : String := "Northing"

def colEasting : String := "Easting"

def colTVDBSL : String := "True Vertical Depth Below Sea Level"

/-- Modelled from the spec: the external CRS-validity predicate — "is this
identifier a geographic (degree-based) system" (spec §6), supplied by the
external CRS library, tabulated here on well-known EPSG identifiers:
geographic `EPSG:4326` (WGS84), `EPSG:4258` (ETRS89), `EPSG:4267` (NAD27),
`EPSG:4269` (NAD83); everything else used in this development is projected
(e.g. `EPSG:25832`, `EPSG:32632`, `EPSG:3857`). -/
def isGeographicCRS (crs : String) : Bool :=
  ["EPSG:4326", "EPSG:4258", "EPSG:4267", "EPSG:4269"].contains crs

/-- The borehole reference collaborator: surface location, CRS identifier,
altitude, and the metadata table mutated by `update_df`. -/
structure BoreholeRef where
  x : ℚ
  y : ℚ
  crs : String
  altitude_above_sea_level : ℚ
  df : List (String × List ℚ)
deriving DecidableEq, Repr

/-- `Borehole.update_df`: concatenates the new rows onto the metadata table
(`pd.concat([self.df, df])`). -/
def update_df (bh : BoreholeRef) (rows : List (String × List ℚ)) : BoreholeRef :=
  { bh with df := bh.df ++ rows }

/-- Number of elements of Python `range(start, stop, step)` for `step ≠ 0`. -/
def pyRangeLen (start stop step : ℤ) : ℕ :=
  if 0 < step then
    if start < stop then (stop - start - 1).toNat / step.toNat + 1 else 0
  else
    if stop < start then (start - stop - 1).toNat / (-step).toNat + 1 else 0

/-- Python `range(start, stop, step)` as a list (defined for `step ≠ 0`;
the caller raises `ValueError` for `step = 0` before this is reached). -/
def pyRange (start stop step : ℤ) : List ℤ :=
  (List.range (pyRangeLen start stop step)).map (fun i => start + step * i)

/-- `np.interp`-style piecewise-linear interpolation of `(x, y)` samples,
clamped at both ends (`x` strictly increasing). -/
def interp1 : List (ℚ × ℚ) → ℚ → ℚ
  | [], _ => 0
  | [(_, y1)], _ => y1
  | (x1, y1) :: (x2, y2) :: rest, d =>
      if d ≤ x1 then y1
      else if d ≤ x2 then y1 + (d - x1) * (y2 - y1) / (x2 - x1)
      else interp1 ((x2, y2) :: rest) d

/-- The positional log returned by the external resampler: a depth grid and
the interpolated cumulative northing/easting. -/
structure PosLog where
  depth : List ℚ
  northing : List ℚ
  easting : List ℚ
deriving DecidableEq, Repr

/-- Modelled from the spec: the external `wellpathpy`
`minimum_curvature().resample(depths)` call — linear interpolation of the
cumulative station trajectory onto the supplied depth grid (spec §4.2); the
trajectory at the original survey stations (`stations`: depth, cumulative
northing, cumulative easting — the solver output of spec §4.1) is taken as
an input, since the solver itself lives in the external library. -/
def resamplePosition (stations : List (ℚ × ℚ × ℚ)) (depths : List ℤ) : PosLog :=
  { depth := depths.map (fun d => (d : ℚ))
    northing := depths.map
      (fun d => interp1 (stations.map (fun st => (st.1, st.2.1))) (d : ℚ))
    easting := depths.map
      (fun d => interp1 (stations.map (fun st => (st.1, st.2.2))) (d : ℚ)) }

/-- The `Deviation` object state after construction. -/
structure DevState where
  borehole : BoreholeRef
  md : List ℚ
  inc : List ℚ
  azi : List ℚ
  tvd : List ℚ
  northing_rel : List ℚ
  easting_rel : List ℚ
  desurveyed_df : List (String × List ℚ)
  crs : String
  northing : Option (List ℚ)
  easting : Option (List ℚ)
  tvdss : Option (List ℚ)
deriving DecidableEq, Repr

/-- Column lookup in an association-list table (`df[name]`; the embedded
states always carry the looked-up columns). -/
def dfGet (df : List (String × List ℚ)) (name : String) : List ℚ :=
  match df.lookup name with
  | some v => v
  | Option.none => []

/-- Column assignment `df[name] = values` (replace or append). -/
def dfSet : List (String × List ℚ) → String → List ℚ → List (String × List ℚ)
  | [], n, v => [(n, v)]
  | (k, w) :: rest, n, v =>
      if k = n then (n, v) :: rest else (k, w) :: dfSet rest n v

/-- Elementwise array-plus-scalar (`series + y`). -/
def vecAdd (xs : List ℚ) (c : ℚ) : List ℚ := xs.map (fun v => v + c)

/-- Elementwise scalar-minus-array (`z - series`). -/
def scalarSub (c : ℚ) (xs : List ℚ) : List ℚ := xs.map (fun v => c - v)

/-- `Deviation.__init__` (`pyborehole/deviation.py`).  Inputs already past
the `isinstance`/column checks: parsed survey arrays `md`/`inc`/`azi` (file
and DataFrame loading are external I/O), the solver's cumulative station
trajectory, an integer `step` (Python's `range` rejects non-integer floats
with a `TypeError`), and `add_origin`.  The statement order of the source is
kept: the depth grid (raising for `step = 0` inside `range`), the resampled
positions, then the CRS guard and the origin offsets when `add_origin`. -/
def Deviation_init (bh : BoreholeRef) (md inc azi : List ℚ)
    (stations : List (ℚ × ℚ × ℚ)) (step : ℤ) (add_origin : Bool) :
    Except PyErr DevState :=
  if step = 0 then
    .error (.valueError rangeErrMsg)
  else
    let pos := resamplePosition stations
      (pyRange 0 (⌊md.getLastD 0⌋ + 1) step)
    if add_origin ∧ bh.crs = wgs84 then
      .error (.valueError crsErrMsg)
    else
      let nrel := if add_origin then vecAdd pos.northing bh.y else pos.northing
      let erel := if add_origin then vecAdd pos.easting bh.x else pos.easting
      .ok
        { borehole := bh
          md := md, inc := inc, azi := azi
          tvd := pos.depth
          northing_rel := nrel
          easting_rel := erel
          desurveyed_df :=
            [(colTVD, pos.depth), (colNorthingRel, nrel), (colEastingRel, erel)]
          crs := bh.crs
          northing := Option.none
          easting := Option.none
          tvdss := Option.none }

/-- `Deviation.add_origin_to_desurveying` (`pyborehole/deviation.py`).  The
result is the updated state; a raise returns the exception **together with
the state as it stands at the raise site** — in the source all four raise
statements (CRS guard, three `isinstance` checks) precede every mutation, so
each error carries the input state unchanged.  Falsy coordinates (`None` or
`0`) are replaced by the borehole reference's stored `x`/`y`/`altitude`. -/
def add_origin_to_desurveying (s : DevState) (x y z : PyVal) :
    Except (PyErr × DevState) DevState :=
  if s.crs = wgs84 then
    .error (.valueError crsErrMsg, s)
  else if ¬ isNumOrNone x then
    .error (.typeError xTypeErrMsg, s)
  else if ¬ isNumOrNone y then
    .error (.typeError yTypeErrMsg, s)
  else if ¬ isNumOrNone z then
    .error (.typeError zTypeErrMsg, s)
  else
    let xq := if pyTruthy x then pyNum x else s.borehole.x
    let yq := if pyTruthy y then pyNum y else s.borehole.y
    let zq := if pyTruthy z then pyNum z else s.borehole.altitude_above_sea_level
    let df1 := dfSet s.desurveyed_df colNorthing
      (vecAdd (dfGet s.desurveyed_df colNorthingRel) yq)
    let df2 := dfSet df1 colEasting (vecAdd (dfGet df1 colEastingRel) xq)
    let df3 := dfSet df2 colTVDBSL (scalarSub zq (dfGet df2 colTVD))
    let bh' := update_df s.borehole
      [(colNorthing, dfGet df3 colNorthing),
       (colEasting, dfGet df3 colEasting),
       (colTVDBSL, dfGet df3 colTVDBSL)]
    .ok
      { s with
        borehole := bh'
        desurveyed_df := df3
        northing := some (dfGet df3 colNorthing)
        easting := some (dfGet df3 colEasting)
        tvdss := some (dfGet df3 colTVDBSL) }

/-- The data a 3D deviation plot hands to the plotting backend
(`ax.plot(easting, northing, -tvd)`); `Option.none` stands for a `None`
coordinate array forwarded as-is. -/
structure Plot3dCall where
  xdata : Option (List ℚ)
  ydata : Option (List ℚ)
  zdata : List ℚ
deriving DecidableEq, Repr

/-- `Deviation.plot_deviation_3d` (`pyborehole/deviation.py`), for arguments
past the `isinstance` checks: no precondition check is performed — with
`relative=False` the (possibly `None`) absolute coordinate arrays are
forwarded directly to the plotting backend. -/
def plot_deviation_3d (s : DevState) (relative : Bool) :
    Except PyErr Plot3dCall :=
  if relative then
    .ok ⟨some s.easting_rel, some s.northing_rel, s.tvd.map (fun t => -t)⟩
  else
    .ok ⟨s.easting, s.northing, s.tvd.map (fun t => -t)⟩

/-- Pointwise assembly of `np.c_[xs, ys, zs]` rows (arrays of equal length
in every reachable call). -/
def zip3Points : List ℚ → List ℚ → List ℚ → List Qvec3
  | x :: xs, y :: ys, z :: zs => ⟨x, y, z⟩ :: zip3Points xs ys zs
  | _, _, _ => []

/-- `Deviation.get_borehole_tube` (`pyborehole/deviation.py`), for arguments
past the `isinstance` checks, up to the spline points handed to PyVista:
with `relative=False` the source evaluates `self.easting + x` — on an
unanchored deviation both absolute arrays are `None` and Python raises a
`TypeError`, not a precondition error about anchoring. -/
def get_borehole_tube (s : DevState) (_radius x y z : ℚ) (relative : Bool) :
    Except PyErr (List Qvec3) :=
  if relative then
    .ok (zip3Points (vecAdd s.easting_rel x) (vecAdd s.northing_rel y)
      (vecAdd (s.tvd.map (fun t => -t)) z))
  else
    match s.easting, s.northing with
    | some e, some n =>
        .ok (zip3Points (vecAdd e x) (vecAdd n y)
          (vecAdd (s.tvd.map (fun t => -t)) z))
    | _, _ => .error (.typeError noneAddErrMsg)

theorem dfGet_dfSet_same (df : List (String × List ℚ)) (n : String)
    (v : List ℚ) : dfGet (dfSet df n v) n = v := by
  induction df with
  | nil => simp [dfGet, dfSet, List.lookup]
  | cons kw rest ih =>
      obtain ⟨k, w⟩ := kw
      by_cases h : k = n
      · subst h
        simp [dfGet, dfSet, List.lookup]
      · simp only [dfSet, if_neg h, dfGet, List.lookup,
          beq_eq_false_iff_ne.mpr (Ne.symm h)]
        exact ih

theorem dfGet_dfSet_other (df : List (String × List ℚ)) {n m : String}
    (h : n ≠ m) (v : List ℚ) : dfGet (dfSet df n v) m = dfGet df m := by
  induction df with
  | nil =>
      simp [dfGet, dfSet, List.lookup, beq_eq_false_iff_ne.mpr (Ne.symm h)]
  | cons kw rest ih =>
      obtain ⟨k, w⟩ := kw
      by_cases hk : k = n
      · subst hk
        simp [dfGet, dfSet, List.lookup, beq_eq_false_iff_ne.mpr (Ne.symm h)]
      · simp only [dfSet, if_neg hk]
        by_cases hm : m = k
        · subst hm
          simp [dfGet, List.lookup]
        · simp only [dfGet, List.lookup, beq_eq_false_iff_ne.mpr hm]
          exact ih

/-- C9: passing an explicit coordinate equal to `0` to
`add_origin_to_desurveying` does not anchor at `0`: the source tests
falsiness (`if not x`) rather than `is None`, so a zero argument behaves
exactly like an absent one and is silently replaced by the borehole
reference's stored `x`, `y`, or `altitude_above_sea_level`. -/
theorem C9_zero_coordinate_treated_as_absent (s : DevState) (x y z : PyVal) :
    add_origin_to_desurveying s (.num 0) y z
      = add_origin_to_desurveying s .none y z ∧
    add_origin_to_desurveying s x (.num 0) z
      = add_origin_to_desurveying s x .none z ∧
    add_origin_to_desurveying s x y (.num 0)
      = add_origin_to_desurveying s x y .none := by
  refine ⟨?_, ?_, ?_⟩ <;>
    simp [add_origin_to_desurveying, isNumOrNone, pyTruthy]

/-- C10: every raise of `add_origin_to_desurveying` (the CRS guard and the
three argument type checks) happens before any mutation, so a failing call
writes no state: the error carries the input state unchanged — no
`Northing`/`Easting`/`True Vertical Depth Below Sea Level` columns are
added, the `northing`/`easting`/`tvdss` attributes keep their values, and
the owning borehole's metadata table is untouched. -/
theorem C10_no_partial_state_on_failure (s : DevState) (x y z : PyVal)
    (e : PyErr) (s' : DevState)
    (h : add_origin_to_desurveying s x y z = .error (e, s')) :
    s' = s ∧
    s'.desurveyed_df = s.desurveyed_df ∧
    s'.northing = s.northing ∧
    s'.easting = s.easting ∧
    s'.tvdss = s.tvdss ∧
    s'.borehole.df = s.borehole.df := by
  have hs : s' = s := by
    unfold add_origin_to_desurveying at h
    split at h
    · simp only [Except.error.injEq, Prod.mk.injEq] at h
      exact h.2.symm
    · split at h
      · simp only [Except.error.injEq, Prod.mk.injEq] at h
        exact h.2.symm
      · split at h
        · simp only [Except.error.injEq, Prod.mk.injEq] at h
          exact h.2.symm
        · split at h
          · simp only [Except.error.injEq, Prod.mk.injEq] at h
            exact h.2.symm
          · simp at h
  subst hs
  exact ⟨rfl, rfl, rfl, rfl, rfl, rfl⟩

theorem col_ne_northing_northingRel : colNorthing ≠ colNorthingRel := by decide

theorem col_ne_northing_eastingRel : colNorthing ≠ colEastingRel := by decide

theorem col_ne_northing_tvd : colNorthing ≠ colTVD := by decide

theorem col_ne_easting_northing : colEasting ≠ colNorthing := by decide

theorem col_ne_easting_tvd : colEasting ≠ colTVD := by decide

theorem col_ne_tvdbsl_northing : colTVDBSL ≠ colNorthing := by decide

theorem col_ne_tvdbsl_easting : colTVDBSL ≠ colEasting := by decide

/-- The values a successful `add_origin_to_desurveying` writes, in terms of
the input state and the resolved coordinates. -/
theorem add_origin_ok_columns (s : DevState) (x y z : PyVal)
    (hcrs : s.crs ≠ wgs84) (hx : isNumOrNone x) (hy : isNumOrNone y)
    (hz : isNumOrNone z) :
    ∃ st, add_origin_to_desurveying s x y z = .ok st ∧
      dfGet st.desurveyed_df colNorthing
        = vecAdd (dfGet s.desurveyed_df colNorthingRel)
            (if pyTruthy y then pyNum y else s.borehole.y) ∧
      dfGet st.desurveyed_df colEasting
        = vecAdd (dfGet s.desurveyed_df colEastingRel)
            (if pyTruthy x then pyNum x else s.borehole.x) ∧
      dfGet st.desurveyed_df colTVDBSL
        = scalarSub
            (if pyTruthy z then pyNum z else s.borehole.altitude_above_sea_level)
            (dfGet s.desurveyed_df colTVD) ∧
      st.northing = some (dfGet st.desurveyed_df colNorthing) ∧
      st.easting = some (dfGet st.desurveyed_df colEasting) ∧
      st.tvdss = some (dfGet st.desurveyed_df colTVDBSL) ∧
      st.borehole.df
        = s.borehole.df ++
            [(colNorthing, dfGet st.desurveyed_df colNorthing),
             (colEasting, dfGet st.desurveyed_df colEasting),
             (colTVDBSL, dfGet st.desurveyed_df colTVDBSL)] := by
  unfold add_origin_to_desurveying
  rw [if_neg hcrs, if_neg (by simpa using hx), if_neg (by simpa using hy),
      if_neg (by simpa using hz)]
  refine ⟨_, rfl, ?_⟩
  have hN : dfGet
      (dfSet s.desurveyed_df colNorthing
        (vecAdd (dfGet s.desurveyed_df colNorthingRel)
          (if pyTruthy y then pyNum y else s.borehole.y)))
      colEastingRel = dfGet s.desurveyed_df colEastingRel :=
    dfGet_dfSet_other _ col_ne_northing_eastingRel _
  have hNtvd : dfGet
      (dfSet s.desurveyed_df colNorthing
        (vecAdd (dfGet s.desurveyed_df colNorthingRel)
          (if pyTruthy y then pyNum y else s.borehole.y)))
      colTVD = dfGet s.desurveyed_df colTVD :=
    dfGet_dfSet_other _ col_ne_northing_tvd _
  simp only [hN, hNtvd,
    dfGet_dfSet_other _ col_ne_easting_tvd,
    dfGet_dfSet_other _ col_ne_tvdbsl_northing,
    dfGet_dfSet_other _ col_ne_tvdbsl_easting,
    dfGet_dfSet_other _ col_ne_easting_northing,
    dfGet_dfSet_same, update_df]
  trivial

/-- A projected (cartesian) CRS identifier (ETRS89 / UTM zone 32N). -/
def utm32 : String := "EPSG:25832"

/-- A geographic (degree-based) CRS identifier other than WGS84 (ETRS89). -/
def etrs89 : String := "EPSG:4258"

/-- Example borehole reference on a projected CRS. -/
def bhEx : BoreholeRef := ⟨10, 7, utm32, 100, []⟩

/-- Example unanchored deviation state over `bhEx` (as produced by
construction with `add_origin=False`: relative columns only,
`northing`/`easting`/`tvdss` unset). -/
def devEx : DevState :=
  { borehole := bhEx
    md := [0], inc := [0], azi := [0]
    tvd := [0]
    northing_rel := [2]
    easting_rel := [3]
    desurveyed_df := [(colTVD, [0]), (colNorthingRel, [2]), (colEastingRel, [3])]
    crs := utm32
    northing := Option.none
    easting := Option.none
    tvdss := Option.none }

theorem devEx_northingRel : dfGet devEx.desurveyed_df colNorthingRel = [2] := by
  simp [devEx, dfGet, List.lookup, colTVD, colNorthingRel]

theorem devEx_eastingRel : dfGet devEx.desurveyed_df colEastingRel = [3] := by
  simp [devEx, dfGet, List.lookup, colTVD, colNorthingRel, colEastingRel]

theorem devEx_tvdCol : dfGet devEx.desurveyed_df colTVD = [0] := by
  simp [devEx, dfGet, List.lookup, colTVD]

/-- C2 counterexample: on `devEx` (projected CRS, `Northing_rel = [2]`,
borehole `y = 7`), calling `add_origin_to_desurveying(x=1, y=0, z=5)` with
the explicit numeric `y = 0` produces `Northing = [9]`, not
`Northing_rel + y = [2]`: the zero is falsy, so the borehole's stored
`y = 7` is silently used instead. -/
theorem C2_counterexample :
    ∃ st, add_origin_to_desurveying devEx (.num 1) (.num 0) (.num 5)
        = .ok st ∧
      dfGet st.desurveyed_df colNorthing = [9] ∧
      vecAdd (dfGet devEx.desurveyed_df colNorthingRel) 0 = [2] ∧
      dfGet st.desurveyed_df colNorthing
        ≠ vecAdd (dfGet devEx.desurveyed_df colNorthingRel) 0 := by
  obtain ⟨st, hok, h1, h2, h3, h4, h5, h6, h7⟩ :=
    add_origin_ok_columns devEx (.num 1) (.num 0) (.num 5)
      (by simp [devEx, utm32, wgs84]) rfl rfl rfl
  refine ⟨st, hok, ?_, ?_, ?_⟩
  · rw [h1, devEx_northingRel]
    norm_num [pyTruthy, devEx, bhEx, vecAdd]
  · rw [devEx_northingRel]
    norm_num [vecAdd]
  · rw [h1, devEx_northingRel]
    norm_num [pyTruthy, devEx, bhEx, vecAdd]

/-- C2 (amended): on a projected CRS, `add_origin_to_desurveying(x, y, z)`
with explicit **nonzero** numeric coordinates yields
`Northing = Northing_rel + y`, `Easting = Easting_rel + x`, and
`True Vertical Depth Below Sea Level = z - True Vertical Depth`, pointwise
over the resampled columns, and stores the same arrays in the
`northing`/`easting`/`tvdss` attributes.  The claim's unrestricted form
fails for zero coordinates, which the falsy-default check replaces by the
borehole's stored values. -/
theorem C2_anchoring_additivity (s : DevState) (x y z : ℚ)
    (hcrs : s.crs ≠ wgs84) (hx : x ≠ 0) (hy : y ≠ 0) (hz : z ≠ 0) :
    ∃ st, add_origin_to_desurveying s (.num x) (.num y) (.num z) = .ok st ∧
      dfGet st.desurveyed_df colNorthing
        = vecAdd (dfGet s.desurveyed_df colNorthingRel) y ∧
      dfGet st.desurveyed_df colEasting
        = vecAdd (dfGet s.desurveyed_df colEastingRel) x ∧
      dfGet st.desurveyed_df colTVDBSL
        = scalarSub z (dfGet s.desurveyed_df colTVD) ∧
      st.northing = some (vecAdd (dfGet s.desurveyed_df colNorthingRel) y) ∧
      st.easting = some (vecAdd (dfGet s.desurveyed_df colEastingRel) x) ∧
      st.tvdss = some (scalarSub z (dfGet s.desurveyed_df colTVD)) := by
  obtain ⟨st, hok, h1, h2, h3, h4, h5, h6, h7⟩ :=
    add_origin_ok_columns s (.num x) (.num y) (.num z) hcrs rfl rfl rfl
  have hty : pyTruthy (.num y) = true := by simp [pyTruthy, hy]
  have htx : pyTruthy (.num x) = true := by simp [pyTruthy, hx]
  have htz : pyTruthy (.num z) = true := by simp [pyTruthy, hz]
  simp only [hty, htx, htz, if_true, pyNum] at h1 h2 h3
  exact ⟨st, hok, h1, h2, h3, by rw [h4, h1], by rw [h5, h2], by rw [h6, h3]⟩

/-- C2 witness: the amended additivity at `devEx` with `x = 1`, `y = 2`,
`z = 5`. -/
theorem C2_witness :
    ∃ st, add_origin_to_desurveying devEx (.num 1) (.num 2) (.num 5)
        = .ok st ∧
      dfGet st.desurveyed_df colNorthing
        = vecAdd (dfGet devEx.desurveyed_df colNorthingRel) 2 ∧
      dfGet st.desurveyed_df colEasting
        = vecAdd (dfGet devEx.desurveyed_df colEastingRel) 1 ∧
      dfGet st.desurveyed_df colTVDBSL
        = scalarSub 5 (dfGet devEx.desurveyed_df colTVD) ∧
      st.northing = some (vecAdd (dfGet devEx.desurveyed_df colNorthingRel) 2) ∧
      st.easting = some (vecAdd (dfGet devEx.desurveyed_df colEastingRel) 1) ∧
      st.tvdss = some (scalarSub 5 (dfGet devEx.desurveyed_df colTVD)) :=
  C2_anchoring_additivity devEx 1 2 5 (by simp [devEx, utm32, wgs84])
    (by norm_num) (by norm_num) (by norm_num)

/-- Construction with `add_origin=True` on a non-WGS84 CRS succeeds and
stores origin-offset values in the relative fields. -/
theorem Deviation_init_ok_add_origin
    (bh : BoreholeRef) (md inc azi : List ℚ) (stations : List (ℚ × ℚ × ℚ))
    (step : ℤ) (hstep : step ≠ 0) (hcrs : bh.crs ≠ wgs84) :
    Deviation_init bh md inc azi stations step true =
      .ok
        { borehole := bh
          md := md, inc := inc, azi := azi
          tvd := (resamplePosition stations
            (pyRange 0 (⌊md.getLastD 0⌋ + 1) step)).depth
          northing_rel := vecAdd (resamplePosition stations
            (pyRange 0 (⌊md.getLastD 0⌋ + 1) step)).northing bh.y
          easting_rel := vecAdd (resamplePosition stations
            (pyRange 0 (⌊md.getLastD 0⌋ + 1) step)).easting bh.x
          desurveyed_df :=
            [(colTVD, (resamplePosition stations
                (pyRange 0 (⌊md.getLastD 0⌋ + 1) step)).depth),
             (colNorthingRel, vecAdd (resamplePosition stations
                (pyRange 0 (⌊md.getLastD 0⌋ + 1) step)).northing bh.y),
             (colEastingRel, vecAdd (resamplePosition stations
                (pyRange 0 (⌊md.getLastD 0⌋ + 1) step)).easting bh.x)]
          crs := bh.crs
          northing := Option.none
          easting := Option.none
          tvdss := Option.none } := by
  simp only [Deviation_init, if_neg hstep, true_and, if_neg hcrs, if_true]

theorem dfGet_init_cols (d n e : List ℚ) :
    dfGet [(colTVD, d), (colNorthingRel, n), (colEastingRel, e)]
        colNorthingRel = n ∧
    dfGet [(colTVD, d), (colNorthingRel, n), (colEastingRel, e)]
        colEastingRel = e ∧
    dfGet [(colTVD, d), (colNorthingRel, n), (colEastingRel, e)]
        colTVD = d := by
  refine ⟨?_, ?_, ?_⟩ <;>
    simp [dfGet, List.lookup, colTVD, colNorthingRel, colEastingRel]

/-- C3: construction with `add_origin=True` (projected CRS) stores
`northing_rel = solver_northing + borehole.y` and
`easting_rel = solver_easting + borehole.x` — origin-offset absolute values,
not relative ones — both as attributes and in the `Northing_rel` /
`Easting_rel` columns of `desurveyed_df`; a subsequent
`add_origin_to_desurveying()` call (default arguments) therefore adds the
borehole origin a second time to the `Northing`/`Easting` it computes. -/
theorem C3_origin_added_twice
    (bh : BoreholeRef) (md inc azi : List ℚ) (stations : List (ℚ × ℚ × ℚ))
    (step : ℤ) (hstep : step ≠ 0) (hcrs : bh.crs ≠ wgs84) :
    ∃ st, Deviation_init bh md inc azi stations step true = .ok st ∧
      st.northing_rel = vecAdd (resamplePosition stations
        (pyRange 0 (⌊md.getLastD 0⌋ + 1) step)).northing bh.y ∧
      st.easting_rel = vecAdd (resamplePosition stations
        (pyRange 0 (⌊md.getLastD 0⌋ + 1) step)).easting bh.x ∧
      dfGet st.desurveyed_df colNorthingRel = st.northing_rel ∧
      dfGet st.desurveyed_df colEastingRel = st.easting_rel ∧
      ∃ st2, add_origin_to_desurveying st .none .none .none = .ok st2 ∧
        dfGet st2.desurveyed_df colNorthing
          = vecAdd (vecAdd (resamplePosition stations
              (pyRange 0 (⌊md.getLastD 0⌋ + 1) step)).northing bh.y) bh.y ∧
        dfGet st2.desurveyed_df colEasting
          = vecAdd (vecAdd (resamplePosition stations
              (pyRange 0 (⌊md.getLastD 0⌋ + 1) step)).easting bh.x) bh.x := by
  refine ⟨_, Deviation_init_ok_add_origin bh md inc azi stations step hstep hcrs,
    rfl, rfl, (dfGet_init_cols _ _ _).1, (dfGet_init_cols _ _ _).2.1, ?_⟩
  obtain ⟨st2, hok, h1, h2, h3, h4, h5, h6, h7⟩ :=
    add_origin_ok_columns
      { borehole := bh
        md := md, inc := inc, azi := azi
        tvd := (resamplePosition stations
          (pyRange 0 (⌊md.getLastD 0⌋ + 1) step)).depth
        northing_rel := vecAdd (resamplePosition stations
          (pyRange 0 (⌊md.getLastD 0⌋ + 1) step)).northing bh.y
        easting_rel := vecAdd (resamplePosition stations
          (pyRange 0 (⌊md.getLastD 0⌋ + 1) step)).easting bh.x
        desurveyed_df :=
          [(colTVD, (resamplePosition stations
              (pyRange 0 (⌊md.getLastD 0⌋ + 1) step)).depth),
           (colNorthingRel, vecAdd (resamplePosition stations
              (pyRange 0 (⌊md.getLastD 0⌋ + 1) step)).northing bh.y),
           (colEastingRel, vecAdd (resamplePosition stations
              (pyRange 0 (⌊md.getLastD 0⌋ + 1) step)).easting bh.x)]
        crs := bh.crs
        northing := Option.none
        easting := Option.none
        tvdss := Option.none }
      .none .none .none hcrs rfl rfl rfl
  refine ⟨st2, hok, ?_, ?_⟩
  · rw [h1]
    simp only [pyTruthy, if_false, Bool.false_eq_true, ite_false]
    rw [(dfGet_init_cols _ _ _).1]
  · rw [h2]
    simp only [pyTruthy, if_false, Bool.false_eq_true, ite_false]
    rw [(dfGet_init_cols _ _ _).2.1]

/-- C3 witness: concrete construction over `bhEx` (projected CRS,
`x = 10`, `y = 7`) with one survey station and `step = 5`. -/
theorem C3_witness :
    ∃ st, Deviation_init bhEx [0] [0] [0] [(0, 2, 3)] 5 true = .ok st ∧
      st.northing_rel = vecAdd (resamplePosition [(0, 2, 3)]
        (pyRange 0 (⌊([0] : List ℚ).getLastD 0⌋ + 1) 5)).northing bhEx.y ∧
      st.easting_rel = vecAdd (resamplePosition [(0, 2, 3)]
        (pyRange 0 (⌊([0] : List ℚ).getLastD 0⌋ + 1) 5)).easting bhEx.x ∧
      dfGet st.desurveyed_df colNorthingRel = st.northing_rel ∧
      dfGet st.desurveyed_df colEastingRel = st.easting_rel ∧
      ∃ st2, add_origin_to_desurveying st .none .none .none = .ok st2 ∧
        dfGet st2.desurveyed_df colNorthing
          = vecAdd (vecAdd (resamplePosition [(0, 2, 3)]
              (pyRange 0 (⌊([0] : List ℚ).getLastD 0⌋ + 1) 5)).northing
              bhEx.y) bhEx.y ∧
        dfGet st2.desurveyed_df colEasting
          = vecAdd (vecAdd (resamplePosition [(0, 2, 3)]
              (pyRange 0 (⌊([0] : List ℚ).getLastD 0⌋ + 1) 5)).easting
              bhEx.x) bhEx.x :=
  C3_origin_added_twice bhEx [0] [0] [0] [(0, 2, 3)] 5 (by norm_num)
    (by simp [bhEx, utm32, wgs84])

/-- Example unanchored deviation over a **geographic** non-WGS84 CRS
(ETRS89, `EPSG:4258`). -/
def devGeoEx : DevState :=
  { devEx with
    borehole := ⟨10, 7, etrs89, 100, []⟩
    crs := etrs89 }

/-- C1: the CRS guard of anchoring. The source checks only the literal
string `EPSG:4326`: WGS84 is rejected with the cartesian-CRS `ValueError`
and projected identifiers are accepted — but another **geographic**
identifier (`EPSG:4258`, ETRS89) passes the guard and anchors successfully,
both at construction with `add_origin=True` and in
`add_origin_to_desurveying`, contradicting the contract that every
geographic (degree-based) CRS be rejected. -/
theorem C1_geographic_crs_not_rejected :
    isGeographicCRS etrs89 = true ∧
    (∃ st, Deviation_init ⟨10, 7, etrs89, 100, []⟩ [0] [0] [0]
        [(0, 2, 3)] 5 true = .ok st) ∧
    (∃ st2, add_origin_to_desurveying devGeoEx .none .none .none
        = .ok st2) ∧
    isGeographicCRS wgs84 = true ∧
    Deviation_init ⟨10, 7, wgs84, 100, []⟩ [0] [0] [0] [(0, 2, 3)] 5 true
      = .error (.valueError crsErrMsg) ∧
    isGeographicCRS utm32 = false ∧
    (∃ st, Deviation_init ⟨10, 7, utm32, 100, []⟩ [0] [0] [0]
        [(0, 2, 3)] 5 true = .ok st) := by
  refine ⟨by decide, ?_, ?_, by decide, ?_, by decide, ?_⟩
  · exact ⟨_, Deviation_init_ok_add_origin _ _ _ _ _ _ (by norm_num)
      (by simp [etrs89, wgs84])⟩
  · obtain ⟨st2, hok, -⟩ :=
      add_origin_ok_columns devGeoEx .none .none .none
        (by simp [devGeoEx, devEx, etrs89, wgs84]) rfl rfl rfl
    exact ⟨st2, hok⟩
  · simp [Deviation_init]
  · exact ⟨_, Deviation_init_ok_add_origin _ _ _ _ _ _ (by norm_num)
      (by simp [utm32, wgs84])⟩

/-- Any state produced by construction is unanchored: the absolute fields
are `None`. -/
theorem Deviation_init_unanchored
    (bh : BoreholeRef) (md inc azi : List ℚ) (stations : List (ℚ × ℚ × ℚ))
    (step : ℤ) (add_origin : Bool) (st : DevState)
    (h : Deviation_init bh md inc azi stations step add_origin = .ok st) :
    st.northing = Option.none ∧ st.easting = Option.none ∧
    st.tvdss = Option.none := by
  unfold Deviation_init at h
  split at h
  · simp at h
  · split at h
    · simp at h
    · simp only [Except.ok.injEq] at h
      subst h
      exact ⟨rfl, rfl, rfl⟩

/-- C6 counterexample: on the unanchored `devEx`, the absolute-frame 3D plot
raises no error at all — it forwards the `None` coordinate arrays to the
plotting backend — and the absolute-frame tube extraction raises a
`TypeError` from evaluating `None + x`, not a precondition error naming the
missing anchoring step. -/
theorem C6_counterexample :
    plot_deviation_3d devEx false
      = .ok ⟨Option.none, Option.none, [0]⟩ ∧
    get_borehole_tube devEx 10 0 0 0 false
      = .error (.typeError noneAddErrMsg) := by
  constructor
  · simp [plot_deviation_3d, devEx]
  · simp [get_borehole_tube, devEx]

/-- C6 (amended): for every deviation fresh from construction (anchoring not
yet performed, so `northing`/`easting`/`tvdss` are `None`), the
absolute-frame operations do **not** fail with a precondition error naming
the anchoring step: `plot_deviation_3d(relative=False)` performs no check
and hands the `None` arrays to the plotting backend, and
`get_borehole_tube(relative=False)` fails with the unrelated `TypeError`
of `None + x`. -/
theorem C6_no_precondition_check_before_anchoring
    (bh : BoreholeRef) (md inc azi : List ℚ) (stations : List (ℚ × ℚ × ℚ))
    (step : ℤ) (add_origin : Bool) (st : DevState) (r x y z : ℚ)
    (h : Deviation_init bh md inc azi stations step add_origin = .ok st) :
    st.northing = Option.none ∧ st.easting = Option.none ∧
    st.tvdss = Option.none ∧
    plot_deviation_3d st false
      = .ok ⟨Option.none, Option.none, st.tvd.map (fun t => -t)⟩ ∧
    get_borehole_tube st r x y z false
      = .error (.typeError noneAddErrMsg) := by
  obtain ⟨h1, h2, h3⟩ :=
    Deviation_init_unanchored bh md inc azi stations step add_origin st h
  refine ⟨h1, h2, h3, ?_, ?_⟩
  · simp [plot_deviation_3d, h1, h2]
  · simp [get_borehole_tube, h1, h2]

/-- C6 witness: the amended statement on a concrete construction. -/
theorem C6_witness :
    ∃ st, Deviation_init bhEx [0] [0] [0] [(0, 2, 3)] 5 true = .ok st ∧
      st.northing = Option.none ∧ st.easting = Option.none ∧
      st.tvdss = Option.none ∧
      plot_deviation_3d st false
        = .ok ⟨Option.none, Option.none, st.tvd.map (fun t => -t)⟩ ∧
      get_borehole_tube st 10 1 2 3 false
        = .error (.typeError noneAddErrMsg) := by
  refine ⟨_, Deviation_init_ok_add_origin bhEx [0] [0] [0] [(0, 2, 3)] 5
    (by norm_num) (by simp [bhEx, utm32, wgs84]), ?_⟩
  exact C6_no_precondition_check_before_anchoring bhEx [0] [0] [0]
    [(0, 2, 3)] 5 true _ 10 1 2 3
    (Deviation_init_ok_add_origin bhEx [0] [0] [0] [(0, 2, 3)] 5
      (by norm_num) (by simp [bhEx, utm32, wgs84]))

/-- C8 counterexample: constructing with the negative step `-5` does **not**
fail: `range(0, 101, -5)` is empty, the external resampler interpolates an
empty depth grid, and construction returns a `Deviation` whose resampled
trajectory is empty — no configuration error is raised. -/
theorem C8_counterexample :
    ∃ st, Deviation_init bhEx [0, 100] [0, 0] [0, 0]
        [(0, 0, 0), (100, 0, 0)] (-5) true = .ok st ∧
      st.tvd = [] ∧ st.northing_rel = [] ∧ st.easting_rel = [] := by
  refine ⟨_, Deviation_init_ok_add_origin bhEx [0, 100] [0, 0] [0, 0]
    [(0, 0, 0), (100, 0, 0)] (-5) (by norm_num)
    (by simp [bhEx, utm32, wgs84]), ?_, ?_, ?_⟩ <;>
  · have hlast : (([0, 100] : List ℚ).getLastD 0) = 100 := rfl
    have hfloor : (⌊(100 : ℚ)⌋ + 1 : ℤ) = 101 := by norm_num
    rw [hlast, hfloor]
    norm_num [pyRange, pyRangeLen, resamplePosition, vecAdd]

/-- C8 (amended): `step = 0` does make construction fail before any
trajectory is produced — but with Python's own
`ValueError: range() arg 3 must not be zero`, not a dedicated configuration
check — while a **negative** step does not fail at all: the depth grid
`range(0, int(md[-1]) + 1, step)` is empty and construction succeeds with an
empty resampled trajectory.  (A non-integer float step likewise dies inside
`range` with a `TypeError`.) -/
theorem C8_step_guard
    (bh : BoreholeRef) (md inc azi : List ℚ) (stations : List (ℚ × ℚ × ℚ))
    (add_origin : Bool) (step : ℤ)
    (hcrs : bh.crs ≠ wgs84) (hmd : 0 ≤ md.getLastD 0) :
    Deviation_init bh md inc azi stations 0 add_origin
      = .error (.valueError rangeErrMsg) ∧
    (step < 0 →
      ∃ st, Deviation_init bh md inc azi stations step add_origin
          = .ok st ∧ st.tvd = []) := by
  constructor
  · simp [Deviation_init]
  · intro hneg
    have hfl : (0 : ℤ) ≤ ⌊md.getLastD 0⌋ := Int.floor_nonneg.mpr hmd
    have hlen : pyRangeLen 0 (⌊md.getLastD 0⌋ + 1) step = 0 := by
      unfold pyRangeLen
      rw [if_neg (by omega : ¬ (0 : ℤ) < step),
          if_neg (by omega : ¬ (⌊md.getLastD 0⌋ + 1 : ℤ) < 0)]
    have hrange : pyRange 0 (⌊md.getLastD 0⌋ + 1) step = [] := by
      unfold pyRange
      rw [hlen]
      rfl
    unfold Deviation_init
    rw [if_neg (by omega : ¬ step = 0),
        if_neg (fun hc => hcrs hc.2)]
    refine ⟨_, rfl, ?_⟩
    show (resamplePosition stations
      (pyRange 0 (⌊md.getLastD 0⌋ + 1) step)).depth = []
    rw [hrange]
    rfl

/-- C8 witness: the amended statement at a concrete survey with `step = -5`
(and the `step = 0` failure at the same inputs). -/
theorem C8_witness :
    Deviation_init bhEx [0, 100] [0, 0] [0, 0] [(0, 0, 0), (100, 0, 0)]
        0 true = .error (.valueError rangeErrMsg) ∧
    ((-5 : ℤ) < 0 →
      ∃ st, Deviation_init bhEx [0, 100] [0, 0] [0, 0]
          [(0, 0, 0), (100, 0, 0)] (-5) true = .ok st ∧ st.tvd = []) :=
  C8_step_guard bhEx [0, 100] [0, 0] [0, 0] [(0, 0, 0), (100, 0, 0)]
    true (-5) (by simp [bhEx, utm32, wgs84]) (by norm_num)

/-- `devEx` anchored against the WGS84 geographic CRS (the guard's failing
configuration). -/
def devWgs : DevState :=
  { devEx with crs := wgs84 }

/-- C10 witness: the failing anchoring call on a WGS84 deviation leaves
every piece of state untouched. -/
theorem C10_witness :
    ∃ e s', add_origin_to_desurveying devWgs .none .none .none
        = .error (e, s') ∧
      s' = devWgs ∧
      s'.desurveyed_df = devWgs.desurveyed_df ∧
      s'.northing = devWgs.northing ∧
      s'.easting = devWgs.easting ∧
      s'.tvdss = devWgs.tvdss ∧
      s'.borehole.df = devWgs.borehole.df := by
  have h : add_origin_to_desurveying devWgs .none .none .none
      = .error (.valueError crsErrMsg, devWgs) := by
    simp [add_origin_to_desurveying, devWgs, devEx]
  exact ⟨_, _, h,
    C10_no_partial_state_on_failure devWgs .none .none .none _ _ h⟩
